import Mathlib

/-!
Verification of the TradingGame round/scoring/leaderboard core.

The source is a single Streamlit application (`src/app.py`).  We embed its
logical core shallowly:

* pandas floats become `ℚ`;
* the config table becomes a list of `Row` values plus an explicit column
  list for `load_config`'s validation;
* the CSV submission store becomes an `Option (List Sub)` (`none` = missing
  or unreadable file);
* fallible code returns `Except AppError` / `Option`;
* the per-session Streamlit state becomes an explicit `SessionState` value
  and each UI handler becomes a case of a `step` function.

pandas `sort_values` is modelled by `List.insertionSort`.  For the
multi-column sort on `["participant", "timestamp"]` this is faithful:
pandas multi-column sorts use a stable lexsort regardless of `kind`.  The
final single-column sort on `cum_score` uses numpy's default quicksort,
which is not stable in general, so there the model merely fixes one of the
admissible sorted permutations; no theorem below relies on the relative
order of entries with equal cumulative scores.
-/

namespace TradingGame

/-- The fixed ticker set (`STOCKS` in `app.py`). -/
def STOCKS : List String := ["CEN", "FBU", "AIR", "FPH", "WHS"]

/-- One row of the round configuration: `round`, `headline`, and one numeric
return per ticker (`row[s]` becomes `ret s`). -/
structure Row where
  round : Int
  headline : String
  ret : String → ℚ

/-- The error kinds the embedded code can produce.  `keyError` is Python's
`KeyError` raised by a failed dict lookup, `configError` the explicit
`ValueError` raised by `load_config`, `indexError` an out-of-range `iloc`.
`invalidActionError` is the dedicated action-validation error kind posited by
the spec; nothing in the source produces it, it exists only to compare the
source's behaviour against the spec's wording. -/
inductive AppError where
  | keyError (key : String)
  | invalidActionError (action : String)
  | configError (missing : List String)
  | indexError
deriving DecidableEq

/-- `action_to_sign` from `app.py`: the dict lookup
`{"Buy": 1, "Sell": -1, "Hold": 0}[action]`; any other key raises a
`KeyError` carrying the looked-up value. -/
def action_to_sign (a : String) : Except AppError Int :=
  if a = "Buy" then .ok 1
  else if a = "Sell" then .ok (-1)
  else if a = "Hold" then .ok 0
  else .error (.keyError a)

/-- `l.iloc[i]` with Python's negative-index wrap-around. -/
def ilocGet {α : Type} (l : List α) (i : Int) : Option α :=
  if 0 ≤ i then l.get? i.toNat
  else if 0 ≤ (l.length : Int) + i then l.get? ((l.length : Int) + i).toNat
  else none

/-- `choices.get(s, "Hold")` from `calc_round_score` / `save_submission`. -/
def choiceFor (choices : List (String × String)) (s : String) : String :=
  (choices.lookup s).getD "Hold"

/-- The generator inside `calc_round_score`: left-to-right, each term is
`action_to_sign(choices.get(s, "Hold")) * float(row[s])`; the first failed
lookup raises. -/
def scoreTerms (row : Row) (choices : List (String × String)) :
    List String → Except AppError ℚ
  | [] => .ok 0
  | s :: rest => do
    let sign ← action_to_sign (choiceFor choices s)
    let tail ← scoreTerms row choices rest
    .ok ((sign : ℚ) * row.ret s + tail)

/-- `calc_round_score(cfg, r_idx, choices)` from `app.py`. -/
def calc_round_score (cfg : List Row) (r_idx : Int)
    (choices : List (String × String)) : Except AppError ℚ :=
  match ilocGet cfg r_idx with
  | none => .error .indexError
  | some row => scoreTerms row choices STOCKS

/-- The enumerated action set of the spec: `{Buy, Sell, Hold}`. -/
def validAction (a : String) : Prop := a = "Buy" ∨ a = "Sell" ∨ a = "Hold"

instance (a : String) : Decidable (validAction a) := by
  unfold validAction; infer_instance

/-- The spec's sign map: Buy→+1, Sell→−1, Hold→0 (total function; on the
enumerated set it agrees with `action_to_sign`). -/
def signOf (a : String) : Int :=
  if a = "Buy" then 1 else if a = "Sell" then -1 else 0

/-- The required config columns: `{"round", "headline"} | set(STOCKS)`. -/
def reqCols : List String := "round" :: "headline" :: STOCKS

/-- `load_config` from `app.py`, on an already-parsed table: the column list
is validated, then the rows are sorted ascending by `round`. -/
def rowLE (a b : Row) : Prop := a.round ≤ b.round

instance : DecidableRel rowLE := fun a b =>
  inferInstanceAs (Decidable (a.round ≤ b.round))

instance : IsTotal Row rowLE := ⟨fun a b => le_total a.round b.round⟩

instance : IsTrans Row rowLE := ⟨fun _ _ _ h1 h2 => le_trans h1 h2⟩

def load_config (cols : List String) (rows : List Row) :
    Except AppError (List Row) :=
  let missing := reqCols.filter (fun c => decide (c ∉ cols))
  if missing = [] then .ok (List.insertionSort rowLE rows)
  else .error (.configError missing)

-- Helper lemmas for the scoring engine.

theorem action_to_sign_of_valid (a : String) (h : validAction a) :
    action_to_sign a = .ok (signOf a) := by
  rcases h with h | h | h <;> subst h <;> rfl

theorem action_to_sign_of_invalid (a : String) (h : ¬ validAction a) :
    action_to_sign a = .error (.keyError a) := by
  unfold validAction at h
  push_neg at h
  simp [action_to_sign, h.1, h.2.1, h.2.2]

theorem choiceFor_valid (choices : List (String × String))
    (h : ∀ p ∈ choices, validAction p.2) (s : String) :
    validAction (choiceFor choices s) := by
  induction choices with
  | nil => exact Or.inr (Or.inr rfl)
  | cons p t ih =>
    by_cases hs : s == p.1
    · have hv := h p (List.mem_cons_self p t)
      simpa [choiceFor, List.lookup, hs] using hv
    · have ht : ∀ q ∈ t, validAction q.2 := fun q hq => h q (List.mem_cons_of_mem p hq)
      simpa [choiceFor, List.lookup, hs] using ih ht

theorem scoreTerms_of_valid (row : Row) (choices : List (String × String))
    (h : ∀ p ∈ choices, validAction p.2) (ts : List String) :
    scoreTerms row choices ts =
      .ok ((ts.map (fun s => ((signOf (choiceFor choices s)) : ℚ) * row.ret s)).sum) := by
  induction ts with
  | nil => rfl
  | cons s rest ih =>
    have hs := action_to_sign_of_valid _ (choiceFor_valid choices h s)
    simp [scoreTerms, hs, ih, bind, Except.bind]

/-- C1: on a valid choices mapping, `calc_round_score` returns the sum over
the five fixed tickers of sign(choice) · return, Buy→+1, Sell→−1, Hold→0,
missing tickers defaulting to Hold. -/
theorem calc_round_score_spec (cfg : List Row) (r_idx : Int)
    (choices : List (String × String)) (row : Row)
    (hrow : ilocGet cfg r_idx = some row)
    (hvalid : ∀ p ∈ choices, validAction p.2) :
    calc_round_score cfg r_idx choices =
      .ok ((STOCKS.map (fun s => ((signOf (choiceFor choices s)) : ℚ) * row.ret s)).sum) := by
  unfold calc_round_score
  rw [hrow]
  exact scoreTerms_of_valid row choices hvalid STOCKS

/-- The single-round config of spec §8's end-to-end example. -/
def row1 : Row :=
  { round := 1, headline := "A",
    ret := fun s =>
      if s = "CEN" then 2 else if s = "FBU" then -1
      else if s = "AIR" then 1/2 else if s = "FPH" then 1 else -1/2 }

def cfg1 : List Row := [row1]

/-- C1 witness: Buy CEN, Sell FBU, Hold elsewhere, on spec §8's config. -/
theorem calc_round_score_spec_witness :
    calc_round_score cfg1 0 [("CEN", "Buy"), ("FBU", "Sell")] =
      .ok ((STOCKS.map (fun s =>
        ((signOf (choiceFor [("CEN", "Buy"), ("FBU", "Sell")] s)) : ℚ) * row1.ret s)).sum) :=
  calc_round_score_spec cfg1 0 [("CEN", "Buy"), ("FBU", "Sell")] row1 rfl (by decide)

theorem scoreTerms_of_invalid (row : Row) (choices : List (String × String)) :
    ∀ ts : List String, (∃ s ∈ ts, ¬ validAction (choiceFor choices s)) →
      ∃ a, ¬ validAction a ∧ scoreTerms row choices ts = .error (.keyError a)
  | [], h => absurd h (by simp)
  | s :: rest, h => by
    by_cases hs : validAction (choiceFor choices s)
    · have hrest : ∃ t ∈ rest, ¬ validAction (choiceFor choices t) := by
        rcases h with ⟨t, ht, hbad⟩
        rcases List.mem_cons.1 ht with rfl | ht
        · exact absurd hs hbad
        · exact ⟨t, ht, hbad⟩
      rcases scoreTerms_of_invalid row choices rest hrest with ⟨a, ha, herr⟩
      refine ⟨a, ha, ?_⟩
      simp [scoreTerms, action_to_sign_of_valid _ hs, herr, bind, Except.bind]
    · exact ⟨choiceFor choices s, hs, by
        simp [scoreTerms, action_to_sign_of_invalid _ hs, bind, Except.bind]⟩

/-- C7 (amended): a choice value outside {Buy, Sell, Hold} makes
`calc_round_score` fail, with the generic key-lookup error carrying the
invalid value. -/
theorem calc_round_score_invalid_fails (cfg : List Row) (r_idx : Int)
    (choices : List (String × String)) (row : Row)
    (hrow : ilocGet cfg r_idx = some row)
    (hbad : ∃ s ∈ STOCKS, ¬ validAction (choiceFor choices s)) :
    ∃ a, ¬ validAction a ∧
      calc_round_score cfg r_idx choices = .error (.keyError a) := by
  unfold calc_round_score
  rw [hrow]
  exact scoreTerms_of_invalid row choices STOCKS hbad

/-- C7 witness: the invalid value "Foo" for CEN. -/
theorem calc_round_score_invalid_fails_witness :
    ∃ a, ¬ validAction a ∧
      calc_round_score cfg1 0 [("CEN", "Foo")] = .error (.keyError a) :=
  calc_round_score_invalid_fails cfg1 0 [("CEN", "Foo")] row1 rfl
    ⟨"CEN", by decide, by decide⟩

/-- C7 counterexample: the failure is the generic `KeyError` of the dict
lookup, not the spec's dedicated `InvalidActionError`. -/
theorem calc_round_score_invalid_cex :
    calc_round_score cfg1 0 [("CEN", "Foo")] = .error (.keyError "Foo") ∧
      calc_round_score cfg1 0 [("CEN", "Foo")] ≠ .error (.invalidActionError "Foo") := by
  constructor
  · rfl
  · intro h
    exact AppError.noConfusion (Except.error.inj h)

/-- C6: `load_config` fails (with the config-validation error) iff a required
column is absent; on success it returns a permutation of the rows sorted
ascending by `round`. -/
theorem load_config_spec (cols : List String) (rows : List Row) :
    ((∃ c ∈ reqCols, c ∉ cols) ↔
      ∃ m, load_config cols rows = .error (.configError m)) ∧
    (∀ out, load_config cols rows = .ok out →
      out.Perm rows ∧ List.Sorted rowLE out) := by
  have hcond : (reqCols.filter (fun c => decide (c ∉ cols)) = []) ↔
      ∀ c ∈ reqCols, c ∈ cols := by
    simp [List.filter_eq_nil_iff]
  by_cases hall : ∀ c ∈ reqCols, c ∈ cols
  · have hnil := hcond.mpr hall
    constructor
    · constructor
      · rintro ⟨c, hc, hnc⟩; exact absurd (hall c hc) hnc
      · rintro ⟨m, hm⟩
        rw [load_config] at hm
        simp only [hnil, if_pos] at hm
        exact Except.noConfusion hm
    · intro out hout
      rw [load_config] at hout
      simp only [hnil, if_pos] at hout
      cases hout
      exact ⟨List.perm_insertionSort rowLE rows, List.sorted_insertionSort rowLE rows⟩
  · have hne : ¬ reqCols.filter (fun c => decide (c ∉ cols)) = [] :=
      fun hnil => hall (hcond.mp hnil)
    have hsome : ∃ c ∈ reqCols, c ∉ cols := by
      push_neg at hall
      exact hall
    constructor
    · constructor
      · intro _
        exact ⟨reqCols.filter (fun c => decide (c ∉ cols)), by
          rw [load_config]; exact if_neg hne⟩
      · intro _; exact hsome
    · intro out hout
      rw [load_config] at hout
      simp only [hne, if_neg] at hout
      exact Except.noConfusion hout

/-! ### Lexicographic string order

Python compares strings lexicographically by code point; `save_submission`'s
timestamps and `compute_leaderboard`'s sort keys rely on it.  We embed that
order directly on the character list of a `String`. -/

def charListLT : List Char → List Char → Bool
  | [], [] => false
  | [], _ :: _ => true
  | _ :: _, [] => false
  | a :: as, b :: bs => if a < b then true else if b < a then false else charListLT as bs

def strLT (a b : String) : Prop := charListLT a.data b.data = true

def strLE (a b : String) : Prop := strLT a b ∨ a = b

instance (a b : String) : Decidable (strLT a b) := by
  unfold strLT; infer_instance

instance (a b : String) : Decidable (strLE a b) := by
  unfold strLE; infer_instance

theorem charListLT_irrefl : ∀ l, charListLT l l = false
  | [] => rfl
  | a :: as => by
    simp [charListLT, lt_irrefl a, charListLT_irrefl as]

theorem charListLT_trans : ∀ a b c, charListLT a b = true → charListLT b c = true →
    charListLT a c = true := by
  intro a
  induction a with
  | nil =>
    intro b c h1 h2
    cases c with
    | nil => cases b with
      | nil => cases h1
      | cons y ys => rw [charListLT] at h2; cases h2
    | cons z zs => rfl
  | cons x xs ih =>
    intro b c h1 h2
    cases b with
    | nil => rw [charListLT] at h1; cases h1
    | cons y ys =>
      cases c with
      | nil => rw [charListLT] at h2; cases h2
      | cons z zs =>
        rw [charListLT] at h1 h2 ⊢
        rcases lt_trichotomy x y with hxy | hxy | hxy
        · rcases lt_trichotomy y z with hyz | hyz | hyz
          · rw [if_pos (lt_trans hxy hyz)]
          · subst hyz; rw [if_pos hxy]
          · rw [if_neg (lt_asymm hyz), if_pos hyz] at h2; cases h2
        · subst hxy
          rw [if_neg (lt_irrefl x), if_neg (lt_irrefl x)] at h1
          rcases lt_trichotomy x z with hxz | hxz | hxz
          · rw [if_pos hxz]
          · subst hxz
            rw [if_neg (lt_irrefl x), if_neg (lt_irrefl x)] at h2 ⊢
            exact ih ys zs h1 h2
          · rw [if_neg (lt_asymm hxz), if_pos hxz] at h2; cases h2
        · rw [if_neg (lt_asymm hxy), if_pos hxy] at h1; cases h1

theorem charListLT_antisymm : ∀ a b, charListLT a b = false → charListLT b a = false →
    a = b
  | [], [], _, _ => rfl
  | [], _ :: _, h, _ => by cases h
  | _ :: _, [], _, h => by cases h
  | x :: xs, y :: ys, h1, h2 => by
    rw [charListLT] at h1 h2
    rcases lt_trichotomy x y with hxy | hxy | hxy
    · rw [if_pos hxy] at h1; cases h1
    · subst hxy
      rw [if_neg (lt_irrefl x), if_neg (lt_irrefl x)] at h1 h2
      rw [charListLT_antisymm xs ys h1 h2]
    · rw [if_pos hxy] at h2; cases h2

theorem strLT_irrefl (a : String) : ¬ strLT a a := by
  simp [strLT, charListLT_irrefl]

theorem strLT_trans {a b c : String} (h1 : strLT a b) (h2 : strLT b c) : strLT a c :=
  charListLT_trans a.data b.data c.data h1 h2

theorem strLT_asymm {a b : String} (h1 : strLT a b) (h2 : strLT b a) : False :=
  strLT_irrefl a (strLT_trans h1 h2)

theorem strLT_ne {a b : String} (h : strLT a b) : a ≠ b :=
  fun he => strLT_irrefl a (he ▸ h)

theorem str_eq_of_data_eq {a b : String} (h : a.data = b.data) : a = b := by
  cases a; cases b; exact congrArg String.mk h

theorem strLE_total (a b : String) : strLE a b ∨ strLE b a := by
  by_cases h1 : charListLT a.data b.data = true
  · exact Or.inl (Or.inl h1)
  · by_cases h2 : charListLT b.data a.data = true
    · exact Or.inr (Or.inl h2)
    · exact Or.inl (Or.inr (str_eq_of_data_eq
        (charListLT_antisymm a.data b.data
          (Bool.eq_false_iff.2 h1) (Bool.eq_false_iff.2 h2))))

theorem strLE_trans {a b c : String} (h1 : strLE a b) (h2 : strLE b c) : strLE a c := by
  rcases h1 with h1 | rfl
  · rcases h2 with h2 | rfl
    · exact Or.inl (strLT_trans h1 h2)
    · exact Or.inl h1
  · exact h2

theorem strLT_of_strLT_of_strLE {a b c : String} (h1 : strLT a b) (h2 : strLE b c) :
    strLT a c := by
  rcases h2 with h2 | rfl
  · exact strLT_trans h1 h2
  · exact h1

theorem strLT_of_strLE_of_ne {a b : String} (h1 : strLE a b) (h2 : a ≠ b) : strLT a b := by
  rcases h1 with h1 | rfl
  · exact h1
  · exact absurd rfl h2

/-! ### The submission log (`save_submission`) -/

/-- One row of `submissions.csv`: the dict built in `save_submission` plus
the recomputed `cum_score_after` column. -/
structure Sub where
  timestamp : String
  participant : String
  round : Int
  headline : String
  choice_cols : List (String × String)
  return_cols : List (String × ℚ)
  round_score : ℚ
  cum_score_after : ℚ
deriving DecidableEq

/-- The `data` dict of `save_submission` (its row has no `cum_score_after`
yet; the recomputation below overwrites the placeholder). -/
def mkData (row : Row) (ts : String) (participant : String)
    (choices : List (String × String)) (score : ℚ) : Sub :=
  { timestamp := ts, participant := participant, round := row.round,
    headline := row.headline,
    choice_cols := STOCKS.map (fun s => (s, choiceFor choices s)),
    return_cols := STOCKS.map (fun s => (s, row.ret s)),
    round_score := score, cum_score_after := 0 }

/-- `df.groupby("participant")["round_score"].cumsum()` assigned back as the
`cum_score_after` column: each row gets the sum of `round_score` over the
rows of its participant up to and including itself, in dataframe row order.
`prev` is the prefix already passed. -/
def recomputeAux (prev : List Sub) : List Sub → List Sub
  | [] => []
  | r :: rest =>
    { r with cum_score_after :=
        (((prev.filter (fun p => decide (p.participant = r.participant))).map
          Sub.round_score).sum) + r.round_score } :: recomputeAux (prev ++ [r]) rest

def recomputeCum (l : List Sub) : List Sub := recomputeAux [] l

/-- `save_submission` from `app.py`: read the store (a missing or unreadable
store is treated as empty), append the new row, recompute the cumulative
column, write everything back.  `none` models the `IndexError` of an
out-of-range `r_idx`. -/
def save_submission (cfg : List Row) (r_idx : Int) (score : ℚ)
    (participant : String) (choices : List (String × String))
    (store : Option (List Sub)) (ts : String) : Option (List Sub) :=
  match ilocGet cfg r_idx with
  | none => none
  | some row =>
    let data := mkData row ts participant choices score
    some (recomputeCum ((store.getD []) ++ [data]))

/-- Every field of a record except the recomputed cumulative column. -/
def coreOf (r : Sub) :
    String × String × Int × String × List (String × String) × List (String × ℚ) × ℚ :=
  (r.timestamp, r.participant, r.round, r.headline, r.choice_cols, r.return_cols,
    r.round_score)

theorem recomputeAux_map_core (l : List Sub) :
    ∀ prev, (recomputeAux prev l).map coreOf = l.map coreOf := by
  induction l with
  | nil => intro prev; rfl
  | cons r rest ih =>
    intro prev
    simp [recomputeAux, coreOf, ih]

theorem recomputeAux_cum (l : List Sub) :
    ∀ prev i r, (recomputeAux prev l).get? i = some r →
      r.cum_score_after =
        (((prev ++ l.take (i + 1)).filter
          (fun p => decide (p.participant = r.participant))).map Sub.round_score).sum := by
  induction l with
  | nil => intro prev i r h; exact Option.noConfusion h
  | cons x rest ih =>
    intro prev i r h
    cases i with
    | zero =>
      rw [recomputeAux] at h
      simp only [List.get?_cons_zero, Option.some.injEq] at h
      subst h
      simp [List.filter_append, List.sum_append]
    | succ i =>
      rw [recomputeAux] at h
      simp only [List.get?_cons_succ] at h
      have := ih (prev ++ [x]) i r h
      simpa [List.append_assoc] using this

/-- C2 (amended): appending a record keeps every previously stored record of
every participant (in order, all fields but the cumulative column
untouched), creates the store from a missing one with exactly the new
record, and gives every stored record a `cum_score_after` equal to the
running sum of `round_score` over its participant's records in store
(append) order. -/
theorem save_submission_spec (cfg : List Row) (r_idx : Int) (score : ℚ)
    (participant : String) (choices : List (String × String))
    (store : Option (List Sub)) (ts : String) (row : Row)
    (hrow : ilocGet cfg r_idx = some row) :
    ∃ out, save_submission cfg r_idx score participant choices store ts = some out ∧
      out.map coreOf =
        ((store.getD []) ++ [mkData row ts participant choices score]).map coreOf ∧
      (store = none →
        out = [{ mkData row ts participant choices score with cum_score_after := score }]) ∧
      (∀ i r, out.get? i = some r →
        r.cum_score_after =
          (((((store.getD []) ++ [mkData row ts participant choices score]).take (i + 1)).filter
            (fun p => decide (p.participant = r.participant))).map Sub.round_score).sum) := by
  refine ⟨recomputeCum ((store.getD []) ++ [mkData row ts participant choices score]),
    ?_, ?_, ?_, ?_⟩
  · rw [save_submission, hrow]
  · exact recomputeAux_map_core _ []
  · rintro rfl
    simp [recomputeCum, recomputeAux, mkData]
  · intro i r h
    simpa using recomputeAux_cum _ [] i r h

/-- A store with two same-second submissions of participant P whose rounds
appear out of round order, as spec §4.4's tie-break clause would reorder
them. -/
def subP2 : Sub :=
  { timestamp := "2025-01-01T10:00:00", participant := "P", round := 2,
    headline := "h2", choice_cols := [], return_cols := [],
    round_score := 1, cum_score_after := 1 }

def subP1 : Sub :=
  { timestamp := "2025-01-01T10:00:00", participant := "P", round := 1,
    headline := "h1", choice_cols := [], return_cols := [],
    round_score := 10, cum_score_after := 11 }

/-- Follows the spec's words for §4.4: the running cumulative sum of
`round_score` over the record's participant's records ordered by submission
time, with the round number as tiebreak (stable on full ties). -/
def specCumByTime (l : List Sub) (i : Nat) : Option ℚ :=
  match l.get? i with
  | none => none
  | some r =>
    some (((l.enum.filter (fun p =>
      decide (p.2.participant = r.participant ∧
        (strLT p.2.timestamp r.timestamp ∨
          (p.2.timestamp = r.timestamp ∧
            (p.2.round < r.round ∨
              (p.2.round = r.round ∧ p.1 ≤ i))))))).map
      (fun p => p.2.round_score)).sum)

/-- C2 counterexample: on a store holding P's round-2 record before P's
round-1 record at the same timestamp, the code computes the cumulative sums
in store order (round-2 record gets 1), while the claim's
timestamp-then-round ordering demands 11 there. -/
theorem save_submission_timeorder_cex :
    ((save_submission cfg1 0 5 "Q" [] (some [subP2, subP1])
        "2025-01-01T10:00:01").getD []).get? 0 =
      some { subP2 with cum_score_after := 1 } ∧
    specCumByTime ((save_submission cfg1 0 5 "Q" [] (some [subP2, subP1])
        "2025-01-01T10:00:01").getD []) 0 = some 11 ∧
    (1 : ℚ) ≠ 11 := by
  refine ⟨?_, ?_, by norm_num⟩
  · simp +decide [save_submission, cfg1, row1, ilocGet, recomputeCum, recomputeAux,
      mkData, subP2, subP1, choiceFor]
  · simp +decide [specCumByTime, save_submission, cfg1, row1, ilocGet, recomputeCum,
      recomputeAux, mkData, subP2, subP1, choiceFor, strLT, List.enum]
    norm_num

/-- C2 witness: appending Q's record to the two-record store of P. -/
theorem save_submission_spec_witness :
    ∃ out, save_submission cfg1 0 5 "Q" [] (some [subP2, subP1])
        "2025-01-01T10:00:01" = some out ∧
      out.map coreOf =
        (((some [subP2, subP1] : Option (List Sub)).getD []) ++
          [mkData row1 "2025-01-01T10:00:01" "Q" [] 5]).map coreOf ∧
      ((some [subP2, subP1] : Option (List Sub)) = none →
        out = [{ mkData row1 "2025-01-01T10:00:01" "Q" [] 5 with cum_score_after := 5 }]) ∧
      (∀ i r, out.get? i = some r →
        r.cum_score_after =
          ((((((some [subP2, subP1] : Option (List Sub)).getD []) ++
              [mkData row1 "2025-01-01T10:00:01" "Q" [] 5]).take (i + 1)).filter
            (fun p => decide (p.participant = r.participant))).map Sub.round_score).sum) :=
  save_submission_spec cfg1 0 5 "Q" [] (some [subP2, subP1])
    "2025-01-01T10:00:01" row1 rfl

/-! ### The leaderboard (`compute_leaderboard`) -/

/-- One row of the leaderboard dataframe. -/
structure LBEntry where
  participant : String
  latest_round : Int
  latest_score : ℚ
  cum_score : ℚ
deriving DecidableEq

/-- The key of `sub.sort_values(["participant", "timestamp"])`. -/
def partTsLE (a b : Sub) : Prop :=
  strLT a.participant b.participant ∨
    (a.participant = b.participant ∧ strLE a.timestamp b.timestamp)

instance : DecidableRel partTsLE := fun a b => by
  unfold partTsLE; infer_instance

instance : IsTotal Sub partTsLE :=
  ⟨fun a b => by
    rcases strLE_total a.participant b.participant with h | h
    · rcases h with h | h
      · exact Or.inl (Or.inl h)
      · rcases strLE_total a.timestamp b.timestamp with ht | ht
        · exact Or.inl (Or.inr ⟨h, ht⟩)
        · exact Or.inr (Or.inr ⟨h.symm, ht⟩)
    · rcases h with h | h
      · exact Or.inr (Or.inl h)
      · rcases strLE_total a.timestamp b.timestamp with ht | ht
        · exact Or.inl (Or.inr ⟨h.symm, ht⟩)
        · exact Or.inr (Or.inr ⟨h, ht⟩)⟩

instance : IsTrans Sub partTsLE :=
  ⟨fun a b c h1 h2 => by
    rcases h1 with h1 | ⟨e1, t1⟩
    · rcases h2 with h2 | ⟨e2, t2⟩
      · exact Or.inl (strLT_trans h1 h2)
      · exact Or.inl (e2 ▸ h1)
    · rcases h2 with h2 | ⟨e2, t2⟩
      · exact Or.inl (by rw [e1]; exact h2)
      · exact Or.inr ⟨e1.trans e2, strLE_trans t1 t2⟩⟩

/-- The key of `board.sort_values("cum_score", ascending=False)`.  The code's
single-column sort is numpy's default quicksort, whose order among equal
keys is not guaranteed; sorting the model with `cumGE` fixes one admissible
sorted permutation, and no theorem relies on that tie order. -/
def cumGE (a b : LBEntry) : Prop := b.cum_score ≤ a.cum_score

instance : DecidableRel cumGE := fun a b =>
  inferInstanceAs (Decidable (b.cum_score ≤ a.cum_score))

instance : IsTotal LBEntry cumGE := ⟨fun a b => le_total b.cum_score a.cum_score⟩

instance : IsTrans LBEntry cumGE := ⟨fun _ _ _ h1 h2 => le_trans h2 h1⟩

/-- `groupby("participant").tail(1)` on a participant-sorted dataframe: keep
the last row of each maximal run of equal participants, in order. -/
def tail1 : List Sub → List Sub
  | [] => []
  | [a] => [a]
  | a :: b :: t =>
    if a.participant = b.participant then tail1 (b :: t) else a :: tail1 (b :: t)

/-- The column selection, rename and self-merge of `compute_leaderboard`:
`latest` has one row per participant, so merging `last_scores` back on
`participant` pairs each row with itself. -/
def toEntry (r : Sub) : LBEntry :=
  { participant := r.participant, latest_round := r.round,
    latest_score := r.round_score, cum_score := r.cum_score_after }

/-- `compute_leaderboard` from `app.py`. -/
def compute_leaderboard (sub : List Sub) : List LBEntry :=
  if sub.isEmpty then []
  else
    List.insertionSort cumGE
      ((tail1 (List.insertionSort partTsLE sub)).map toEntry)

theorem partTsLE_strLE_part {a b : Sub} (h : partTsLE a b) :
    strLE a.participant b.participant := by
  rcases h with h | ⟨e, _⟩
  · exact Or.inl h
  · exact Or.inr e

theorem head_strLE_part {b : Sub} {t : List Sub}
    (hs : List.Sorted partTsLE (b :: t)) {x : Sub} (hx : x ∈ b :: t) :
    strLE b.participant x.participant := by
  rcases List.mem_cons.mp hx with rfl | hx
  · exact Or.inr rfl
  · exact partTsLE_strLE_part ((List.sorted_cons.mp hs).1 x hx)

theorem tail1_subset : ∀ l (r : Sub), r ∈ tail1 l → r ∈ l
  | [], r, h => absurd h (List.not_mem_nil r)
  | [a], r, h => by simpa [tail1] using h
  | a :: b :: t, r, h => by
    rw [tail1] at h
    by_cases hp : a.participant = b.participant
    · rw [if_pos hp] at h
      exact List.mem_cons_of_mem a (tail1_subset (b :: t) r h)
    · rw [if_neg hp] at h
      rcases List.mem_cons.mp h with rfl | h
      · exact List.mem_cons_self r (b :: t)
      · exact List.mem_cons_of_mem a (tail1_subset (b :: t) r h)

theorem tail1_covers : ∀ l (r : Sub), r ∈ l →
    ∃ x ∈ tail1 l, x.participant = r.participant
  | [], r, h => absurd h (List.not_mem_nil r)
  | [a], r, h => by
    rw [List.mem_singleton] at h
    subst h
    exact ⟨r, by simp [tail1], rfl⟩
  | a :: b :: t, r, h => by
    rw [tail1]
    by_cases hp : a.participant = b.participant
    · rw [if_pos hp]
      rcases List.mem_cons.mp h with rfl | h
      · rcases tail1_covers (b :: t) b (List.mem_cons_self b t) with ⟨x, hx, e⟩
        exact ⟨x, hx, e.trans hp.symm⟩
      · exact tail1_covers (b :: t) r h
    · rw [if_neg hp]
      rcases List.mem_cons.mp h with rfl | h
      · exact ⟨r, List.mem_cons_self r _, rfl⟩
      · rcases tail1_covers (b :: t) r h with ⟨x, hx, e⟩
        exact ⟨x, List.mem_cons_of_mem a hx, e⟩

theorem tail1_maxTs : ∀ l, List.Sorted partTsLE l → ∀ r ∈ tail1 l,
    ∀ x ∈ l, x.participant = r.participant → strLE x.timestamp r.timestamp
  | [], _, r, hr, _, _, _ => absurd hr (List.not_mem_nil r)
  | [a], _, r, hr, x, hx, he => by
    rw [tail1, List.mem_singleton] at hr
    rw [List.mem_singleton] at hx
    subst hr; subst hx
    exact Or.inr rfl
  | a :: b :: t, hs, r, hr, x, hx, he => by
    have hs1 := (List.sorted_cons.mp hs).1
    have hs2 := (List.sorted_cons.mp hs).2
    rw [tail1] at hr
    by_cases hp : a.participant = b.participant
    · rw [if_pos hp] at hr
      rcases List.mem_cons.mp hx with rfl | hxt
      · have hbr : b.participant = r.participant := hp.symm.trans he
        have hb := tail1_maxTs (b :: t) hs2 r hr b (List.mem_cons_self b t) hbr
        have hts : strLE x.timestamp b.timestamp := by
          rcases hs1 b (List.mem_cons_self b t) with hlt | ⟨_, hts⟩
          · exact absurd hp (strLT_ne hlt)
          · exact hts
        exact strLE_trans hts hb
      · exact tail1_maxTs (b :: t) hs2 r hr x hxt he
    · rw [if_neg hp] at hr
      have hab : strLT a.participant b.participant :=
        strLT_of_strLE_of_ne
          (partTsLE_strLE_part (hs1 b (List.mem_cons_self b t))) hp
      rcases List.mem_cons.mp hr with rfl | hr
      · rcases List.mem_cons.mp hx with rfl | hxt
        · exact Or.inr rfl
        · have hlt : strLT r.participant x.participant :=
            strLT_of_strLT_of_strLE hab (head_strLE_part hs2 hxt)
          exact absurd he.symm (strLT_ne hlt)
      · have hrm : r ∈ b :: t := tail1_subset _ r hr
        rcases List.mem_cons.mp hx with rfl | hxt
        · have hlt : strLT x.participant r.participant :=
            strLT_of_strLT_of_strLE hab (head_strLE_part hs2 hrm)
          exact absurd he (strLT_ne hlt)
        · exact tail1_maxTs (b :: t) hs2 r hr x hxt he

theorem tail1_nodup : ∀ l, List.Sorted partTsLE l →
    List.Pairwise (fun p q : Sub => p.participant ≠ q.participant) (tail1 l)
  | [], _ => List.Pairwise.nil
  | [a], _ => by simp [tail1]
  | a :: b :: t, hs => by
    have hs1 := (List.sorted_cons.mp hs).1
    have hs2 := (List.sorted_cons.mp hs).2
    rw [tail1]
    by_cases hp : a.participant = b.participant
    · rw [if_pos hp]
      exact tail1_nodup (b :: t) hs2
    · rw [if_neg hp]
      refine List.Pairwise.cons ?_ (tail1_nodup (b :: t) hs2)
      intro x hx
      have hab : strLT a.participant b.participant :=
        strLT_of_strLE_of_ne
          (partTsLE_strLE_part (hs1 b (List.mem_cons_self b t))) hp
      have hlt : strLT a.participant x.participant :=
        strLT_of_strLT_of_strLE hab (head_strLE_part hs2 (tail1_subset _ x hx))
      exact strLT_ne hlt

/-- C3 (amended): `compute_leaderboard` returns `[]` on the empty record
set, is sorted descending by cumulative score (the relative order of
entries with equal cumulative scores is not asserted — the code's
single-column quicksort does not guarantee one), and each entry is backed
by a record of its participant whose timestamp is maximal among that
participant's records, carrying that record's round, round score and
stored cumulative score; the round number is not consulted as a tiebreak,
and which record is picked among equal timestamps is not asserted. -/
theorem compute_leaderboard_spec (sub : List Sub) :
    (sub = [] → compute_leaderboard sub = []) ∧
    List.Pairwise (fun a b : LBEntry => b.cum_score ≤ a.cum_score)
      (compute_leaderboard sub) ∧
    (∀ e ∈ compute_leaderboard sub, ∃ r ∈ sub,
      r.participant = e.participant ∧ r.round = e.latest_round ∧
      r.round_score = e.latest_score ∧ r.cum_score_after = e.cum_score ∧
      ∀ x ∈ sub, x.participant = e.participant →
        strLE x.timestamp r.timestamp) := by
  refine ⟨fun h => by rw [h]; rfl, ?_, ?_⟩
  · by_cases hempty : sub.isEmpty
    · rw [compute_leaderboard, if_pos hempty]
      exact List.Pairwise.nil
    · rw [compute_leaderboard, if_neg hempty]
      exact (List.sorted_insertionSort cumGE
        ((tail1 (List.insertionSort partTsLE sub)).map toEntry)).imp (fun h => h)
  · intro e he
    by_cases hempty : sub.isEmpty
    · rw [compute_leaderboard, if_pos hempty] at he
      exact absurd he (List.not_mem_nil e)
    · rw [compute_leaderboard, if_neg hempty] at he
      have he2 : e ∈ (tail1 (List.insertionSort partTsLE sub)).map toEntry :=
        (List.perm_insertionSort cumGE _).subset he
      rcases List.mem_map.mp he2 with ⟨r, hr, rfl⟩
      have hrsub : r ∈ sub :=
        (List.perm_insertionSort partTsLE sub).subset (tail1_subset _ r hr)
      refine ⟨r, hrsub, rfl, rfl, rfl, rfl, ?_⟩
      intro x hx hxe
      have hxs : x ∈ List.insertionSort partTsLE sub :=
        (List.perm_insertionSort partTsLE sub).mem_iff.mpr hx
      exact tail1_maxTs _ (List.sorted_insertionSort partTsLE sub) r hr x hxs hxe

/-- Follows the spec's words for §4.5: the chronologically last record of a
participant — by timestamp, with the round number as tiebreak. -/
def specLatestByTimeRound (l : List Sub) (p : String) : Option Sub :=
  (l.filter (fun r => decide (r.participant = p))).foldl
    (fun acc r =>
      match acc with
      | none => some r
      | some a =>
        if strLT a.timestamp r.timestamp ∨
            (a.timestamp = r.timestamp ∧ a.round < r.round)
        then some r else some a)
    none

/-- C3 counterexample: with P's round-2 record stored before P's round-1
record at the same timestamp, the code's leaderboard entry reports round 1
(the positionally last record), while the claim's timestamp-then-round
ordering names the round-2 record as chronologically last. -/
theorem compute_leaderboard_roundtie_cex :
    compute_leaderboard [subP2, subP1] =
      [{ participant := "P", latest_round := 1, latest_score := 10,
         cum_score := 11 }] ∧
    specLatestByTimeRound [subP2, subP1] "P" = some subP2 ∧
    subP2.round = 2 ∧ (1 : Int) ≠ 2 := by
  refine ⟨?_, ?_, rfl, by decide⟩
  · simp +decide [compute_leaderboard, subP2, subP1, tail1, toEntry]
  · simp +decide [specLatestByTimeRound, subP2, subP1]

/-- C10: the leaderboard has exactly one entry per distinct participant
appearing in the records: no duplicates, nobody with a record omitted, and
no entry without a backing record. -/
theorem compute_leaderboard_unique (sub : List Sub) (hne : sub ≠ []) :
    List.Pairwise (fun a b : LBEntry => a.participant ≠ b.participant)
      (compute_leaderboard sub) ∧
    (∀ r ∈ sub, ∃ e ∈ compute_leaderboard sub, e.participant = r.participant) ∧
    (∀ e ∈ compute_leaderboard sub, ∃ r ∈ sub, r.participant = e.participant) := by
  have hempty : ¬ sub.isEmpty = true := by
    simpa [List.isEmpty_iff] using hne
  rw [compute_leaderboard, if_neg hempty]
  refine ⟨?_, ?_, ?_⟩
  · have hnd := tail1_nodup _ (List.sorted_insertionSort partTsLE sub)
    have hmap : List.Pairwise (fun a b : LBEntry => a.participant ≠ b.participant)
        ((tail1 (List.insertionSort partTsLE sub)).map toEntry) :=
      List.pairwise_map.mpr hnd
    exact hmap.perm (List.perm_insertionSort cumGE _).symm (fun h he => h he.symm)
  · intro r hr
    have hrs : r ∈ List.insertionSort partTsLE sub :=
      (List.perm_insertionSort partTsLE sub).mem_iff.mpr hr
    rcases tail1_covers _ r hrs with ⟨x, hx, e⟩
    exact ⟨toEntry x,
      (List.perm_insertionSort cumGE _).mem_iff.mpr (List.mem_map_of_mem toEntry hx), e⟩
  · intro e he
    rcases List.mem_map.mp ((List.perm_insertionSort cumGE _).subset he) with ⟨r, hr, rfl⟩
    exact ⟨r, (List.perm_insertionSort partTsLE sub).subset (tail1_subset _ r hr), rfl⟩

/-- C10 witness: a one-record store. -/
theorem compute_leaderboard_unique_witness :
    List.Pairwise (fun a b : LBEntry => a.participant ≠ b.participant)
      (compute_leaderboard [subP2]) ∧
    (∀ r ∈ [subP2], ∃ e ∈ compute_leaderboard [subP2], e.participant = r.participant) ∧
    (∀ e ∈ compute_leaderboard [subP2], ∃ r ∈ [subP2], r.participant = e.participant) :=
  compute_leaderboard_unique [subP2] (by decide)

/-! ### The per-session state machine

`st.session_state` of the Play tab, as initialised by `init_state`, plus the
persistent store: each UI handler becomes one operation of `step`.  The
widget values of the per-round selectboxes (`st.session_state[f"{r_idx}_{s}"]`)
are part of the state; Streamlit keeps them across reruns and resets. -/

structure SessionState where
  round_idx : Int
  choices : List (Int × List (String × String))
  scores : List ℚ
  participant : String
  locked_rounds : Finset Int
  widgets : List ((Int × String) × String)
deriving DecidableEq

def initSession : SessionState :=
  { round_idx := 0, choices := [], scores := [], participant := "",
    locked_rounds := ∅, widgets := [] }

/-- Session state plus the shared submission store. -/
structure World where
  session : SessionState
  store : Option (List Sub)
deriving DecidableEq

def initWorld : World := { session := initSession, store := none }

/-- The user interactions the Play tab accepts.  `submit` carries the
timestamp `datetime.now()` would produce.  `advance`, `retreat` and
`resetAll` have no handler in `app.py`; they are modelled from the spec
(§4.3) below. -/
inductive SessionOp where
  | setParticipant (p : String)
  | selectChoice (ticker : String) (value : String)
  | submit (ts : String)
  | resetPlayer
  | resetAll
  | advance
  | retreat

/-- Python dict assignment `d[k] = v`: overwrite in place, else append. -/
def upsert {α β : Type} [DecidableEq α] (k : α) (v : β) (l : List (α × β)) :
    List (α × β) :=
  if l.any (fun p => decide (p.1 = k)) then
    l.map (fun p => if p.1 = k then (k, v) else p)
  else l ++ [(k, v)]

/-- The value shown by the selectbox keyed `f"{r_idx}_{s}"` (initially
`"Hold"`, the default of an untouched round). -/
def widgetVal (s : SessionState) (t : String) : String :=
  (s.widgets.lookup (s.round_idx, t)).getD "Hold"

/-- The dict built at `st.session_state.choices[r_idx] = {s: ... for s in STOCKS}`. -/
def currentChoices (s : SessionState) : List (String × String) :=
  STOCKS.map (fun t => (t, widgetVal s t))

/-- One user interaction.  The submit handler follows `app.py` lines
120-126: it is reachable only with a participant set and the current round
not locked; it stores the widget choices, scores them, appends the score,
locks the round and appends to the submission store.  A scoring failure
(impossible via the selectbox UI) aborts after the choices assignment. -/
def step (cfg : List Row) (w : World) : SessionOp → World
  | .setParticipant p =>
    { w with session := { w.session with participant := p } }
  | .selectChoice t v =>
    if w.session.round_idx ∈ w.session.locked_rounds ∨ t ∉ STOCKS ∨ ¬ validAction v
    then w
    else { w with session := { w.session with
      widgets := upsert (w.session.round_idx, t) v w.session.widgets } }
  | .submit ts =>
    if w.session.participant = "" ∨ w.session.round_idx ∈ w.session.locked_rounds
    then w
    else
      match calc_round_score cfg w.session.round_idx (currentChoices w.session) with
      | .error _ =>
        { w with session := { w.session with
            choices := upsert w.session.round_idx (currentChoices w.session)
              w.session.choices } }
      | .ok q =>
        { session := { w.session with
            choices := upsert w.session.round_idx (currentChoices w.session)
              w.session.choices,
            scores := w.session.scores ++ [q],
            locked_rounds := insert w.session.round_idx w.session.locked_rounds },
          store :=
            match save_submission cfg w.session.round_idx q w.session.participant
                (currentChoices w.session) w.store ts with
            | some l => some l
            | none => w.store }
  | .resetPlayer =>
    { w with session := { w.session with
        round_idx := 0, choices := [], scores := [], locked_rounds := ∅ } }
  | .resetAll =>
    -- Modelled from the spec: §4.3 `resetAll()` clears all SessionState
    -- fields including `participant`; no handler exists in `app.py`.
    { w with session := { w.session with
        round_idx := 0, choices := [], scores := [], locked_rounds := ∅,
        participant := "" } }
  | .advance =>
    -- Modelled from the spec: §4.3 `advance()` increments the round pointer,
    -- allowed only when the current round is Locked and not already last
    -- (no-op otherwise); no handler exists in `app.py`.
    if w.session.round_idx ∈ w.session.locked_rounds ∧
        w.session.round_idx < (cfg.length : Int) - 1
    then { w with session := { w.session with round_idx := w.session.round_idx + 1 } }
    else w
  | .retreat =>
    -- Modelled from the spec: §4.3 `retreat()` decrements the round pointer,
    -- allowed only when it is positive; no handler exists in `app.py`.
    if 0 < w.session.round_idx
    then { w with session := { w.session with round_idx := w.session.round_idx - 1 } }
    else w

def run (cfg : List Row) (w : World) : List SessionOp → World
  | [] => w
  | op :: rest => run cfg (step cfg w op) rest

/-- Whether a submit interaction in state `s` records a score and locks the
current round (participant set, round unlocked, scoring succeeds). -/
def submitSucceeds (cfg : List Row) (s : SessionState) : Prop :=
  ¬ s.participant = "" ∧ s.round_idx ∉ s.locked_rounds ∧
    ∃ q, calc_round_score cfg s.round_idx (currentChoices s) = .ok q

instance (cfg : List Row) (s : SessionState) : Decidable (submitSucceeds cfg s) := by
  unfold submitSucceeds
  have : Decidable (∃ q, calc_round_score cfg s.round_idx (currentChoices s) = .ok q) :=
    match calc_round_score cfg s.round_idx (currentChoices s) with
    | .ok q => isTrue ⟨q, rfl⟩
    | .error e => isFalse (fun ⟨q, hq⟩ => Except.noConfusion hq)
  exact instDecidableAnd

/-- The observer for C4: how many scores have been recorded for each round
index since the last reset (a successful submit records one). -/
def countStep (cfg : List Row) (w : World) (g : Int → Nat) : SessionOp → (Int → Nat)
  | .submit _ =>
    if submitSucceeds cfg w.session
    then fun r => if r = w.session.round_idx then g r + 1 else g r
    else g
  | .resetPlayer => fun _ => 0
  | .resetAll => fun _ => 0
  | _ => g

def runCount (cfg : List Row) (w : World) (g : Int → Nat) :
    List SessionOp → (Int → Nat)
  | [] => g
  | op :: rest => runCount cfg (step cfg w op) (countStep cfg w g op) rest

theorem step_submit_guard (cfg : List Row) (w : World) (ts : String)
    (h : w.session.participant = "" ∨ w.session.round_idx ∈ w.session.locked_rounds) :
    step cfg w (.submit ts) = w := by
  rw [step, if_pos h]

theorem step_submit_err (cfg : List Row) (w : World) (ts : String) (e : AppError)
    (hg : ¬ (w.session.participant = "" ∨ w.session.round_idx ∈ w.session.locked_rounds))
    (hcalc : calc_round_score cfg w.session.round_idx (currentChoices w.session) =
      .error e) :
    step cfg w (.submit ts) =
      { w with session := { w.session with
          choices := upsert w.session.round_idx (currentChoices w.session)
            w.session.choices } } := by
  rw [step, if_neg hg, hcalc]

theorem step_submit_ok (cfg : List Row) (w : World) (ts : String) (q : ℚ)
    (hg : ¬ (w.session.participant = "" ∨ w.session.round_idx ∈ w.session.locked_rounds))
    (hcalc : calc_round_score cfg w.session.round_idx (currentChoices w.session) =
      .ok q) :
    step cfg w (.submit ts) =
      { session := { w.session with
          choices := upsert w.session.round_idx (currentChoices w.session)
            w.session.choices,
          scores := w.session.scores ++ [q],
          locked_rounds := insert w.session.round_idx w.session.locked_rounds },
        store :=
          match save_submission cfg w.session.round_idx q w.session.participant
              (currentChoices w.session) w.store ts with
          | some l => some l
          | none => w.store } := by
  rw [step, if_neg hg, hcalc]

/-- The C4 invariant, strengthened for the induction. -/
def lockedInv (cfg : List Row) (w : World) (g : Int → Nat) : Prop :=
  (∀ r : Int, r ∈ w.session.locked_rounds ↔ g r = 1) ∧
  (∀ r : Int, g r ≤ 1) ∧
  w.session.scores.length = w.session.locked_rounds.card

theorem lockedInv_step (cfg : List Row) (w : World) (g : Int → Nat)
    (h : lockedInv cfg w g) (op : SessionOp) :
    lockedInv cfg (step cfg w op) (countStep cfg w g op) := by
  obtain ⟨hiff, hle, hlen⟩ := h
  cases op with
  | setParticipant p => exact ⟨hiff, hle, hlen⟩
  | selectChoice t v =>
    rw [step]
    by_cases hc : w.session.round_idx ∈ w.session.locked_rounds ∨
        t ∉ STOCKS ∨ ¬ validAction v
    · rw [if_pos hc]; exact ⟨hiff, hle, hlen⟩
    · rw [if_neg hc]; exact ⟨hiff, hle, hlen⟩
  | resetPlayer =>
    refine ⟨fun r => ?_, fun r => Nat.zero_le 1, by simp [step]⟩
    simp [step, countStep]
  | resetAll =>
    refine ⟨fun r => ?_, fun r => Nat.zero_le 1, by simp [step]⟩
    simp [step, countStep]
  | advance =>
    rw [step]
    by_cases hc : w.session.round_idx ∈ w.session.locked_rounds ∧
        w.session.round_idx < (cfg.length : Int) - 1
    · rw [if_pos hc]; exact ⟨hiff, hle, hlen⟩
    · rw [if_neg hc]; exact ⟨hiff, hle, hlen⟩
  | retreat =>
    rw [step]
    by_cases hc : 0 < w.session.round_idx
    · rw [if_pos hc]; exact ⟨hiff, hle, hlen⟩
    · rw [if_neg hc]; exact ⟨hiff, hle, hlen⟩
  | submit ts =>
    simp only [countStep]
    by_cases hguard : w.session.participant = "" ∨
        w.session.round_idx ∈ w.session.locked_rounds
    · have hfail : ¬ submitSucceeds cfg w.session := by
        rintro ⟨hp, hl, _⟩
        rcases hguard with hg | hg
        · exact hp hg
        · exact hl hg
      rw [step_submit_guard cfg w ts hguard, if_neg hfail]
      exact ⟨hiff, hle, hlen⟩
    · have hpl := hguard
      push_neg at hpl
      obtain ⟨hp, hl⟩ := hpl
      cases hcalc : calc_round_score cfg w.session.round_idx (currentChoices w.session) with
      | error e =>
        have hfail : ¬ submitSucceeds cfg w.session := by
          rintro ⟨_, _, q, hq⟩
          rw [hcalc] at hq
          exact Except.noConfusion hq
        rw [step_submit_err cfg w ts e hguard hcalc, if_neg hfail]
        exact ⟨hiff, hle, hlen⟩
      | ok q =>
        have hok : submitSucceeds cfg w.session := ⟨hp, hl, q, hcalc⟩
        rw [step_submit_ok cfg w ts q hguard hcalc, if_pos hok]
        have hg0 : g w.session.round_idx = 0 := by
          have h1 : ¬ g w.session.round_idx = 1 := fun hh => hl ((hiff _).mpr hh)
          have h2 := hle w.session.round_idx
          omega
        refine ⟨fun r => ?_, fun r => ?_, ?_⟩
        · by_cases hr : r = w.session.round_idx
          · subst hr
            simp [Finset.mem_insert, hg0]
          · simp only [if_neg hr]
            show r ∈ insert w.session.round_idx w.session.locked_rounds ↔ g r = 1
            rw [Finset.mem_insert]
            constructor
            · rintro (h | h)
              · exact absurd h hr
              · exact (hiff r).mp h
            · intro h
              exact Or.inr ((hiff r).mpr h)
        · by_cases hr : r = w.session.round_idx
          · subst hr; simp [hg0]
          · simp only [if_neg hr]; exact hle r
        · show (w.session.scores ++ [q]).length =
            (insert w.session.round_idx w.session.locked_rounds).card
          rw [List.length_append, List.length_cons, List.length_nil,
            Finset.card_insert_of_not_mem hl, hlen]

theorem lockedInv_run (cfg : List Row) :
    ∀ (ops : List SessionOp) (w : World) (g : Int → Nat),
      lockedInv cfg w g → lockedInv cfg (run cfg w ops) (runCount cfg w g ops)
  | [], w, g, h => h
  | op :: rest, w, g, h =>
    lockedInv_run cfg rest (step cfg w op) (countStep cfg w g op)
      (lockedInv_step cfg w g h op)

/-- C4: in every state reachable from the initial session by the session
operations, a round index is locked iff exactly one score has been recorded
for it since the last reset, and the number of recorded scores equals the
number of locked rounds. -/
theorem locked_iff_scored (cfg : List Row) (ops : List SessionOp) :
    (∀ r : Int, r ∈ (run cfg initWorld ops).session.locked_rounds ↔
      runCount cfg initWorld (fun _ => 0) ops r = 1) ∧
    (run cfg initWorld ops).session.scores.length =
      (run cfg initWorld ops).session.locked_rounds.card := by
  have h := lockedInv_run cfg ops initWorld (fun _ => 0)
    ⟨fun r => by simp [initWorld, initSession], fun r => Nat.zero_le 1,
      by simp [initWorld, initSession]⟩
  exact ⟨h.1, h.2.2⟩

/-- C5: a submit on a round that is already locked is a complete no-op: the
whole world — scores, locked set and the persistent store included — is
unchanged. -/
theorem submit_locked_noop (cfg : List Row) (w : World) (ts : String)
    (h : w.session.round_idx ∈ w.session.locked_rounds) :
    step cfg w (.submit ts) = w := by
  rw [step, if_pos (Or.inr h)]

/-- C5 restated on two consecutive submits: once the first submit has left
the current round locked, a second submit changes nothing. -/
theorem submit_twice_rejected (cfg : List Row) (w : World) (ts1 ts2 : String)
    (h : (step cfg w (.submit ts1)).session.round_idx ∈
      (step cfg w (.submit ts1)).session.locked_rounds) :
    step cfg (step cfg w (.submit ts1)) (.submit ts2) = step cfg w (.submit ts1) :=
  submit_locked_noop cfg (step cfg w (.submit ts1)) ts2 h

/-- A world with the participant entered, ready to submit round 0. -/
def wA : World :=
  { session := { initSession with participant := "Team A" }, store := none }

/-- C5 witness: on spec §8's one-round config, submitting round 0 twice. -/
theorem submit_twice_rejected_witness :
    step cfg1 (step cfg1 wA (.submit "t1")) (.submit "t2") =
      step cfg1 wA (.submit "t1") :=
  submit_twice_rejected cfg1 wA "t1" "t2" (by decide)

/-- C8: `resetPlayer` clears choices, scores and the locked set, resets the
round pointer to 0, and leaves the participant (and the store) unchanged. -/
theorem resetPlayer_spec (cfg : List Row) (w : World) :
    (step cfg w .resetPlayer).session.choices = [] ∧
    (step cfg w .resetPlayer).session.scores = [] ∧
    (step cfg w .resetPlayer).session.locked_rounds = ∅ ∧
    (step cfg w .resetPlayer).session.round_idx = 0 ∧
    (step cfg w .resetPlayer).session.participant = w.session.participant ∧
    (step cfg w .resetPlayer).store = w.store := by
  refine ⟨rfl, rfl, rfl, rfl, rfl, rfl⟩

theorem round_idx_bounds_step (cfg : List Row) (hcfg : cfg ≠ []) (w : World)
    (h : 0 ≤ w.session.round_idx ∧ w.session.round_idx ≤ (cfg.length : Int) - 1)
    (op : SessionOp) :
    0 ≤ (step cfg w op).session.round_idx ∧
      (step cfg w op).session.round_idx ≤ (cfg.length : Int) - 1 := by
  have hlen : 1 ≤ (cfg.length : Int) := by
    have : cfg.length ≠ 0 := fun h0 => hcfg (List.eq_nil_of_length_eq_zero h0)
    omega
  obtain ⟨h0, h1⟩ := h
  cases op with
  | setParticipant p => exact ⟨h0, h1⟩
  | selectChoice t v =>
    rw [step]
    by_cases hc : w.session.round_idx ∈ w.session.locked_rounds ∨
        t ∉ STOCKS ∨ ¬ validAction v
    · rw [if_pos hc]; exact ⟨h0, h1⟩
    · rw [if_neg hc]; exact ⟨h0, h1⟩
  | submit ts =>
    by_cases hguard : w.session.participant = "" ∨
        w.session.round_idx ∈ w.session.locked_rounds
    · rw [step_submit_guard cfg w ts hguard]; exact ⟨h0, h1⟩
    · cases hcalc : calc_round_score cfg w.session.round_idx (currentChoices w.session) with
      | error e => rw [step_submit_err cfg w ts e hguard hcalc]; exact ⟨h0, h1⟩
      | ok q => rw [step_submit_ok cfg w ts q hguard hcalc]; exact ⟨h0, h1⟩
  | resetPlayer =>
    constructor
    · show (0 : Int) ≤ 0; omega
    · show (0 : Int) ≤ (cfg.length : Int) - 1; omega
  | resetAll =>
    constructor
    · show (0 : Int) ≤ 0; omega
    · show (0 : Int) ≤ (cfg.length : Int) - 1; omega
  | advance =>
    rw [step]
    by_cases hc : w.session.round_idx ∈ w.session.locked_rounds ∧
        w.session.round_idx < (cfg.length : Int) - 1
    · rw [if_pos hc]
      obtain ⟨_, hc2⟩ := hc
      constructor
      · show (0 : Int) ≤ w.session.round_idx + 1; omega
      · show w.session.round_idx + 1 ≤ (cfg.length : Int) - 1; omega
    · rw [if_neg hc]; exact ⟨h0, h1⟩
  | retreat =>
    rw [step]
    by_cases hc : 0 < w.session.round_idx
    · rw [if_pos hc]
      constructor
      · show (0 : Int) ≤ w.session.round_idx - 1; omega
      · show w.session.round_idx - 1 ≤ (cfg.length : Int) - 1; omega
    · rw [if_neg hc]; exact ⟨h0, h1⟩

theorem round_idx_bounds_run (cfg : List Row) (hcfg : cfg ≠ []) :
    ∀ (ops : List SessionOp) (w : World),
      0 ≤ w.session.round_idx ∧ w.session.round_idx ≤ (cfg.length : Int) - 1 →
      0 ≤ (run cfg w ops).session.round_idx ∧
        (run cfg w ops).session.round_idx ≤ (cfg.length : Int) - 1
  | [], w, h => h
  | op :: rest, w, h =>
    round_idx_bounds_run cfg hcfg rest (step cfg w op)
      (round_idx_bounds_step cfg hcfg w h op)

/-- C9: on a non-empty config, the round pointer of every reachable state
stays within `[0, roundCount - 1]`: `advance` never passes the last round
and `retreat` never goes below 0. -/
theorem round_idx_in_bounds (cfg : List Row) (ops : List SessionOp)
    (hcfg : cfg ≠ []) :
    0 ≤ (run cfg initWorld ops).session.round_idx ∧
      (run cfg initWorld ops).session.round_idx ≤ (cfg.length : Int) - 1 := by
  refine round_idx_bounds_run cfg hcfg ops initWorld ⟨le_refl 0, ?_⟩
  have : cfg.length ≠ 0 := fun h0 => hcfg (List.eq_nil_of_length_eq_zero h0)
  simp [initWorld, initSession]
  omega

/-- C9 witness: a concrete run on spec §8's one-round config. -/
theorem round_idx_in_bounds_witness :
    0 ≤ (run cfg1 initWorld
        [.retreat, .advance, .submit "t1", .advance, .retreat]).session.round_idx ∧
      (run cfg1 initWorld
        [.retreat, .advance, .submit "t1", .advance, .retreat]).session.round_idx ≤
        (cfg1.length : Int) - 1 :=
  round_idx_in_bounds cfg1 [.retreat, .advance, .submit "t1", .advance, .retreat]
    (by simp [cfg1])

end TradingGame
